import Mathlib

/-!
Verification of the chunking engine of the RAG-general-purpose repository.

The development shallowly embeds the code of `scripts/chunking/chunker.py`
(dataclasses `ChunkRule` and `Chunk`, the `BaseChunker` pipeline
`split` = `_initial_split` then `_enforce_bounds` then
`_apply_overlap_and_wrap`), the rule resolver of
`scripts/chunking/rules.py` (`get_rule`), and the strategy dispatch of
`scripts/chunking/chunker_v3.py` (`split`).

Modelling conventions:
* Python strings are embedded as `List Char` (named `Str` below); string
  literals are converted with `ofStr`.
* The token counter is the chunker's default,
  `TokenCounter.simple_whitespace`, i.e. `len(text.split())`; `words`
  below is Python's `str.split()` (split on whitespace runs, dropping
  empty pieces) restricted to the ASCII whitespace characters
  `' '  '\t'  '\n'  '\r'  '\x0b'  '\x0c'`.  Non-ASCII Unicode whitespace
  is not modelled; no claim depends on it.
* `uuid`-based identifiers (`Chunk.id`, the generated `doc_id` fallback)
  and the enriched `meta` dictionary copied into every chunk are
  nondeterministic or pass-through and are referenced by no claim; they
  are omitted from the embedded `Chunk` record.
* Python exceptions are embedded as `Except Str`.
-/

/-- Python strings, embedded as lists of characters. -/
abbrev Str := List Char

/-- Conversion from a Lean string literal to the embedded string type. -/
def ofStr (s : String) : Str := s.toList

/-- ASCII whitespace, the separator set of Python's `str.split()` and of the
regex class `\s` as used by the chunker. -/
def isWS (c : Char) : Bool :=
  c = ' ' || c = '\t' || c = '\n' || c = '\r' || c = '\x0b' || c = '\x0c'

/-- Helper for `words`: `cur` is the word currently being read, reversed. -/
def wordsAux (cur : Str) : Str → List Str
  | [] => if cur = [] then [] else [cur.reverse]
  | c :: cs =>
    if isWS c then
      if cur = [] then wordsAux [] cs else cur.reverse :: wordsAux [] cs
    else wordsAux (c :: cur) cs

/-- Python `str.split()` with no argument: split on runs of whitespace,
dropping empty pieces. -/
def words (s : Str) : List Str := wordsAux [] s

/-- The chunker's default token counter `TokenCounter.simple_whitespace`:
`len(text.split())` (chunker.py lines 64-67). -/
def tc (s : Str) : Nat := (words s).length

/-- Python `' '.join(ws)`. -/
def joinWords : List Str → Str
  | [] => []
  | [w] => w
  | w :: ws => w ++ ' ' :: joinWords ws

/-- Python `str.strip()`: remove leading and trailing whitespace. -/
def strip (s : Str) : Str :=
  ((s.dropWhile isWS).reverse.dropWhile isWS).reverse

@[simp] theorem wordsAux_nil (cur : Str) :
    wordsAux cur [] = if cur = [] then [] else [cur.reverse] := rfl

theorem wordsAux_cons (cur : Str) (c : Char) (cs : Str) :
    wordsAux cur (c :: cs) =
      if isWS c then
        if cur = [] then wordsAux [] cs else cur.reverse :: wordsAux [] cs
      else wordsAux (c :: cur) cs := rfl

/-- Splitting distributes over a whitespace character: the text before the
separator and the text after contribute independent word lists. -/
theorem wordsAux_append_ws {c : Char} (hc : isWS c = true) :
    ∀ (a : Str) (cur : Str) (b : Str),
      wordsAux cur (a ++ c :: b) = wordsAux cur a ++ wordsAux [] b := by
  intro a
  induction a with
  | nil =>
    intro cur b
    simp [wordsAux_cons, hc]
    by_cases hcur : cur = [] <;> simp [hcur]
  | cons x xs ih =>
    intro cur b
    by_cases hx : isWS x
    · by_cases hcur : cur = [] <;>
        simp [wordsAux_cons, hx, hcur, ih]
    · simp [wordsAux_cons, hx, ih]

theorem words_append_ws {c : Char} (hc : isWS c = true) (a b : Str) :
    words (a ++ c :: b) = words a ++ words b :=
  wordsAux_append_ws hc a [] b

/-- A proper word: nonempty and free of whitespace.  Every element of a
`words` result is proper. -/
def Proper (w : Str) : Prop := w ≠ [] ∧ ∀ ch ∈ w, isWS ch = false

theorem wordsAux_proper :
    ∀ (s cur : Str), (∀ ch ∈ cur, isWS ch = false) →
      ∀ w ∈ wordsAux cur s, Proper w := by
  intro s
  induction s with
  | nil =>
    intro cur hcur w hw
    by_cases hc : cur = []
    · simp [hc] at hw
    · simp [hc] at hw
      subst hw
      refine ⟨by simpa using hc, ?_⟩
      intro ch hch
      exact hcur ch (by simpa using hch)
  | cons c cs ih =>
    intro cur hcur w hw
    rw [wordsAux_cons] at hw
    by_cases hws : isWS c
    · simp [hws] at hw
      by_cases hc : cur = []
      · simp [hc] at hw
        exact ih [] (by simp) w hw
      · simp [hc] at hw
        rcases hw with hw | hw
        · subst hw
          refine ⟨by simpa using hc, ?_⟩
          intro ch hch
          exact hcur ch (by simpa using hch)
        · exact ih [] (by simp) w hw
    · simp [hws] at hw
      refine ih (c :: cur) ?_ w hw
      intro ch hch
      rcases List.mem_cons.mp hch with h | h
      · subst h; simpa using hws
      · exact hcur ch h

theorem words_proper (s : Str) : ∀ w ∈ words s, Proper w :=
  wordsAux_proper s [] (by simp)

/-- On a whitespace-free text the splitter returns the text as one word
(prefixed by the pending reversed accumulator). -/
theorem wordsAux_no_ws :
    ∀ (w cur : Str), (∀ ch ∈ w, isWS ch = false) →
      wordsAux cur w =
        if cur.reverse ++ w = [] then [] else [cur.reverse ++ w] := by
  intro w
  induction w with
  | nil => intro cur _; simp [wordsAux_nil]
  | cons c cs ih =>
    intro cur hw
    have hc : isWS c = false := hw c (by simp)
    rw [wordsAux_cons, if_neg (by simp [hc])]
    rw [ih (c :: cur) (fun ch hch => hw ch (List.mem_cons_of_mem c hch))]
    simp

theorem words_single {w : Str} (hp : Proper w) : words w = [w] := by
  have := wordsAux_no_ws w [] hp.2
  simpa [words, hp.1] using this

@[simp] theorem joinWords_nil : joinWords [] = [] := rfl

theorem joinWords_cons (w : Str) (ws : List Str) (h : ws ≠ []) :
    joinWords (w :: ws) = w ++ ' ' :: joinWords ws := by
  cases ws with
  | nil => exact absurd rfl h
  | cons x xs => rfl

/-- Joining proper words with single spaces and re-splitting recovers the
word list: `' '.join(ws).split() == ws`. -/
theorem words_joinWords :
    ∀ (ws : List Str), (∀ w ∈ ws, Proper w) → words (joinWords ws) = ws := by
  intro ws
  induction ws with
  | nil => intro _; simp [words]
  | cons w ws ih =>
    intro h
    cases ws with
    | nil => simpa [joinWords] using words_single (h w (by simp))
    | cons x xs =>
      rw [joinWords_cons w (x :: xs) (by simp)]
      rw [words_append_ws (by simp [isWS]) w (joinWords (x :: xs))]
      rw [words_single (h w (by simp)), ih (fun v hv => h v (by simp [hv]))]
      simp

theorem tc_append_ws {c : Char} (hc : isWS c = true) (a b : Str) :
    tc (a ++ c :: b) = tc a + tc b := by
  simp [tc, words_append_ws hc]

theorem tc_append_space (a b : Str) : tc (a ++ ' ' :: b) = tc a + tc b :=
  tc_append_ws (by simp [isWS]) a b

theorem tc_joinWords (ws : List Str) (h : ∀ w ∈ ws, Proper w) :
    tc (joinWords ws) = ws.length := by
  simp [tc, words_joinWords ws h]

theorem tc_word {w : Str} (hp : Proper w) : tc w = 1 := by
  simp [tc, words_single hp]

/-! ### Data model: `ChunkRule`, `Chunk` (chunker.py lines 24-53) -/

/-- The dataclass `ChunkRule` (chunker.py lines 38-44) after validation by
`__post_init__`.  Validation guarantees non-negative fields, so the embedded
record carries `Nat` fields; `mkChunkRule` below models construction from
arbitrary Python integers. -/
structure ChunkRule where
  strategy : Str
  min_tokens : Nat
  max_tokens : Nat
  overlap : Nat
deriving DecidableEq, Repr

/-- Construction of a `ChunkRule`, including the `__post_init__` validation
(chunker.py lines 46-53): the three checks in source order, each raising
`ValueError` with the source's message. -/
def mkChunkRule (strategy : Str) (min_tokens max_tokens overlap : Int) :
    Except Str ChunkRule :=
  if min_tokens < 0 ∨ max_tokens < 0 then
    .error (ofStr ("Token limits must be non-negative"))
  else if min_tokens > max_tokens ∧ max_tokens > 0 then
    .error (ofStr ("min_tokens cannot exceed max_tokens"))
  else if overlap < 0 then
    .error (ofStr ("Overlap must be non-negative"))
  else
    .ok ⟨strategy, min_tokens.toNat, max_tokens.toNat, overlap.toNat⟩

/-- The strategy name `by_paragraph` used throughout the chunker. -/
def byParagraphName : Str := ofStr ("by_paragraph")

/-- The built-in default rule `BaseChunker._default_rule`
(chunker.py lines 103-108). -/
def defaultRule : ChunkRule :=
  { strategy := byParagraphName, min_tokens := 50, max_tokens := 300,
    overlap := 20 }

/-- The dataclass `Chunk` (chunker.py lines 24-35), restricted to its
deterministic fields.  The `id` (a fresh `uuid`), `doc_id` and the enriched
`meta` dictionary are omitted: no claim refers to them. -/
structure Chunk where
  text : Str
  chunk_index : Nat
  overlap_tokens : Nat
  token_count : Nat
deriving DecidableEq, Repr

instance : Inhabited Chunk := ⟨⟨[], 0, 0, 0⟩⟩

/-! ### The paragraph strategy (chunker.py lines 169-174) -/

/-- Python `re.sub(r'\r\n', '\n', text)`: replace every (non-overlapping,
left-to-right) occurrence of CRLF by LF. -/
def normalizeNewlines : Str → Str
  | [] => []
  | ['\r'] => ['\r']
  | '\r' :: '\n' :: rest => '\n' :: normalizeNewlines rest
  | c :: rest => c :: normalizeNewlines rest

/-- Characters of a whitespace run that precede its first newline. -/
def nlBefore (pend : Str) : Str := pend.takeWhile (fun c => c ≠ '\n')

/-- Characters of a whitespace run that follow its last newline. -/
def nlAfter (pend : Str) : Str :=
  (pend.reverse.takeWhile (fun c => c ≠ '\n')).reverse

/-- Worker for `paraSplit`.  `cur` is the current piece, `pend` the
whitespace run currently being read.  A run containing at least two
newlines contains exactly one separator occurrence of `\n\s*\n`, spanning
from the run's first newline to its last (the leftmost match starts at the
first newline and the greedy `\s*` ends it at the last); the run's prefix
before the first newline belongs to the piece on the left, its suffix after
the last newline to the piece on the right. -/
def paraGo (pieces : List Str) (cur pend : Str) : Str → List Str
  | [] =>
    if 2 ≤ pend.count '\n' then pieces ++ [cur ++ nlBefore pend, nlAfter pend]
    else pieces ++ [cur ++ pend]
  | c :: rest =>
    if isWS c then paraGo pieces cur (pend ++ [c]) rest
    else if 2 ≤ pend.count '\n' then
      paraGo (pieces ++ [cur ++ nlBefore pend]) (nlAfter pend ++ [c]) [] rest
    else paraGo pieces (cur ++ pend ++ [c]) [] rest

/-- Python `re.split(r'\n\s*\n', text)`. -/
def paraSplit (text : Str) : List Str := paraGo [] [] [] text

/-- The splitter `BaseChunker._split_by_paragraph` (chunker.py lines
169-174): normalize
line endings, split on blank-line separators, strip each piece and drop the
empty ones. -/
def splitByParagraph (text : Str) : List Str :=
  ((paraSplit (normalizeNewlines text)).map strip).filter (fun p => p ≠ [])

/-! ### Oversize splitting (`_split_large_segment`, chunker.py 379-401) -/

/-- Loop body of `_split_large_segment`: state is the emitted chunks, the
current word group and the current token count. -/
def slsGo (max_tokens : Nat) (chunks : List Str) (cur : List Str)
    (cnt : Nat) : List Str → List Str
  | [] => if cur = [] then chunks else chunks ++ [joinWords cur]
  | w :: ws =>
    let wt := Nat.max 1 (tc w)
    if max_tokens < cnt + wt ∧ cur ≠ [] then
      slsGo max_tokens (chunks ++ [joinWords cur]) [w] wt ws
    else slsGo max_tokens chunks (cur ++ [w]) (cnt + wt) ws

/-- The oversize splitter `BaseChunker._split_large_segment` (chunker.py
lines 379-401): greedily
group the whitespace words of `segment`, flushing the group whenever adding
the next word would push the running count above `max_tokens`. -/
def splitLargeSegment (segment : Str) (max_tokens : Nat) : List Str :=
  slsGo max_tokens [] [] 0 (words segment)

/-! ### Bounds enforcement (`_enforce_bounds`, chunker.py 324-377) -/

/-- Loop body of `_enforce_bounds`: walks the segments carrying the emitted
list `bounded` and the pending merge `buffer`. -/
def enforceGo (rule : ChunkRule) (bounded : List Str) (buffer : Str) :
    List Str → List Str × Str
  | [] => (bounded, buffer)
  | segment :: rest =>
    if segment = [] then enforceGo rule bounded buffer rest
    else if 0 < rule.max_tokens ∧ rule.max_tokens < tc segment then
      let bounded1 := if buffer = [] then bounded else bounded ++ [buffer]
      enforceGo rule (bounded1 ++ splitLargeSegment segment rule.max_tokens)
        [] rest
    else
      let st :=
        if buffer = [] then (bounded, segment)
        else
          let combined := buffer ++ ' ' :: segment
          if rule.max_tokens = 0 ∨ tc combined ≤ rule.max_tokens then
            (bounded, combined)
          else (bounded ++ [buffer], segment)
      let st2 :=
        if rule.min_tokens ≤ tc st.2 then (st.1 ++ [st.2], ([] : Str))
        else st
      enforceGo rule st2.1 st2.2 rest

/-- The bounds enforcer `BaseChunker._enforce_bounds` (chunker.py lines
324-377): split oversize
segments, merge undersize neighbours, and resolve a leftover buffer by
merging it into the last emitted segment when possible. -/
def enforceBounds (segments : List Str) (rule : ChunkRule) : List Str :=
  if segments = [] then []
  else
    let r := enforceGo rule [] [] segments
    let bounded := r.1
    let buffer := r.2
    if buffer = [] then bounded
    else if bounded ≠ [] ∧ tc buffer < rule.min_tokens then
      let lastCombined := bounded.getLast?.getD [] ++ ' ' :: buffer
      if rule.max_tokens = 0 ∨ tc lastCombined ≤ rule.max_tokens then
        bounded.dropLast ++ [lastCombined]
      else bounded ++ [buffer]
    else bounded ++ [buffer]

/-! ### Overlap injection and wrapping (`_apply_overlap_and_wrap`,
chunker.py 403-448) -/

/-- The overlap window `_apply_overlap_and_wrap` extracts from the previous
segment (chunker.py line 416): `prev_words[-rule.overlap:]` when the
previous segment has at least `overlap` words, the whole word list
otherwise. -/
def overlapWindow (rule : ChunkRule) (prev : Str) : List Str :=
  if rule.overlap ≤ (words prev).length then
    (words prev).drop ((words prev).length - rule.overlap)
  else words prev

/-- Body of the loop of `_apply_overlap_and_wrap` for the segment at
position `idx`.  Mirrors chunker.py lines 408-444 with the default token
counter; the overlap window is taken from the pre-overlap previous segment
`segments[idx - 1]`. -/
def wrapOne (segments : List Str) (rule : ChunkRule) (idx : Nat) : Chunk :=
  let segment := segments.getD idx []
  let p :=
    if 0 < rule.overlap ∧ 0 < idx then
      let overlapWords := overlapWindow rule (segments.getD (idx - 1) [])
      if overlapWords = [] then (segment, 0)
      else
        let candidate := joinWords overlapWords ++ ' ' :: segment
        if rule.max_tokens = 0 ∨ tc candidate ≤ rule.max_tokens then
          (candidate, overlapWords.length)
        else (segment, 0)
    else (segment, 0)
  { text := p.1, chunk_index := idx, overlap_tokens := p.2,
    token_count := tc p.1 }

/-- The overlap injector and chunk assembler
`BaseChunker._apply_overlap_and_wrap` (chunker.py lines 403-448). -/
def applyOverlapAndWrap (segments : List Str) (rule : ChunkRule) :
    List Chunk :=
  (List.range segments.length).map (wrapOne segments rule)

/-! ### The chunker and its `split` entry point (chunker.py 95-165) -/

/-- Metadata dictionaries, restricted to string values (the chunker reads
only the string-valued keys d o c _ t y p e and d o c _ i d). -/
abbrev Meta := List (Str × Str)

/-- Python `str.lower()` on the embedded strings. -/
def lowerStr (s : Str) : Str := s.map Char.toLower

/-- The key string for the document type. -/
def docTypeKey : Str := ofStr ("doc_type")

/-- Instance state of `BaseChunker`: the loaded rule table `_rules` and the
strategy registry `_strategy_registry` (populated by
`_register_default_strategies` and extensible through
`register_strategy`).  The token counter is fixed to the default
`TokenCounter.simple_whitespace`. -/
structure Chunker where
  rules : List (Str × ChunkRule)
  registry : List (Str × (Str → List Str))

/-- Rule selection of `BaseChunker.split` (chunker.py line 158):
`self._rules.get(doc_type, self._default_rule)`. -/
def Chunker.selectRule (c : Chunker) (doc_type : Str) : ChunkRule :=
  (c.rules.lookup doc_type).getD defaultRule

/-- The rule a `split` call uses: the lower-cased `doc_type` metadata entry
resolved against the rule table (chunker.py lines 154-158). -/
def Chunker.splitRule (c : Chunker) (meta : Meta) : ChunkRule :=
  c.selectRule (lowerStr ((meta.lookup docTypeKey).getD []))

/-- The dispatcher `BaseChunker._initial_split` (chunker.py lines
316-322): an unknown
strategy name is replaced by `by_paragraph` (with a printed
diagnostic, not modelled); the final registry access raises `KeyError` only
if that name is itself unregistered, which `__init__` prevents. -/
def Chunker.initialSplitE (c : Chunker) (text strategy : Str) :
    Except Str (List Str) :=
  let strategy2 :=
    if (c.registry.lookup strategy).isSome then strategy else byParagraphName
  match c.registry.lookup strategy2 with
  | some f => .ok (f text)
  | none => .error (ofStr ("KeyError"))

/-- The entry point `BaseChunker.split` (chunker.py lines 148-165):
empty text yields no
chunks; otherwise resolve the rule, run the initial split, enforce bounds
and wrap with overlap. -/
def Chunker.split (c : Chunker) (text : Str) (meta : Meta) :
    Except Str (List Chunk) :=
  if text = [] then .ok []
  else
    match c.initialSplitE text (c.splitRule meta).strategy with
    | .error e => .error e
    | .ok raw =>
      .ok (applyOverlapAndWrap (enforceBounds raw (c.splitRule meta))
        (c.splitRule meta))

/-! ### The resolver of rules.py (`get_rule`, rules.py 42-78) -/

/-- The dataclass `ChunkRule` of rules.py (a distinct, unvalidated record
with optional bounds). -/
structure RuleV2 where
  split_strategy : Str
  min_tokens : Option Int := none
  max_tokens : Option Int := none
  overlap : Option Int := none
  notes : Option Str := none
  min_chunk_size : Option Int := none
deriving DecidableEq, Repr

/-- The key string `default` of the fallback table entry. -/
def defaultKey : Str := ofStr ("default")

/-- The resolver `get_rule` of rules.py (lines 42-78): look the document
type up in the loaded table, fall back to the entry keyed `default`, and
raise
`KeyError` when both are absent.  Table entries stand for the non-empty
rule dictionaries of the YAML file. -/
def rulesGet (table : List (Str × RuleV2)) (doc_type : Str) :
    Except Str RuleV2 :=
  match table.lookup doc_type with
  | some r => .ok r
  | none =>
    match table.lookup defaultKey with
    | some r => .ok r
    | none => .error (ofStr ("KeyError: no rule and no default"))

/-! ### The strategy dispatch of chunker_v3.py (lines 89-106) -/

/-- The branch of the if/elif chain of `chunker_v3.split` that handles a
strategy name. -/
inductive V3Branch
  | paragraph
  | slide
  | sheets
  | blankLine
  | rows
  | emailBlock
deriving DecidableEq, Repr

/-- Branch selection of `chunker_v3.split` (chunker_v3.py lines 89-106):
the strategy-name routing of the if/elif chain; an unsupported name raises
`ValueError` carrying the name. -/
def v3SelectBranch (strategy : Str) : Except Str V3Branch :=
  if strategy = ofStr ("by_paragraph") ∨ strategy = ofStr ("paragraph") then
    .ok V3Branch.paragraph
  else if strategy = ofStr ("by_slide") ∨ strategy = ofStr ("slide") then
    .ok V3Branch.slide
  else if strategy = ofStr ("split_on_sheets") ∨ strategy = ofStr ("sheet")
      ∨ strategy = ofStr ("sheets") then
    .ok V3Branch.sheets
  else if strategy = ofStr ("blank_line") then
    .ok V3Branch.blankLine
  else if strategy = ofStr ("split_on_rows") then
    .ok V3Branch.rows
  else if strategy = ofStr ("by_email_block") ∨ strategy = ofStr ("eml") then
    .ok V3Branch.emailBlock
  else .error (ofStr ("Unsupported strategy: ") ++ strategy)

/-- The strategy names `chunker_v3.split` supports. -/
def v3SupportedNames : List Str :=
  [ofStr ("by_paragraph"), ofStr ("paragraph"), ofStr ("by_slide"),
   ofStr ("slide"), ofStr ("split_on_sheets"), ofStr ("sheet"),
   ofStr ("sheets"), ofStr ("blank_line"), ofStr ("split_on_rows"),
   ofStr ("by_email_block"), ofStr ("eml")]

/-- Formalization of claim C9's property: across the repository's two
dispatch sites (`BaseChunker._initial_split` and `chunker_v3.split`), one
single policy handles strategy names absent from the registry — either
both sites always raise, or both sites always succeed (fall back). -/
def uniformUnknownStrategyPolicy (c : Chunker) : Prop :=
  (∀ s, c.registry.lookup s = none →
      (∀ t, (c.initialSplitE t s).isOk = false)
      ∧ (v3SelectBranch s).isOk = false)
  ∨ (∀ s, c.registry.lookup s = none →
      (∀ t, (c.initialSplitE t s).isOk = true)
      ∧ (v3SelectBranch s).isOk = true)

/-! ### Properties of `splitLargeSegment` -/

/-- Invariant of the `_split_large_segment` loop: provided every processed
word is proper and the running group never exceeds `max_tokens`, every
emitted piece stays within `max_tokens` and the pieces' words concatenate
to the processed words. -/
theorem slsGo_spec (max_tokens : Nat) (hmax : 0 < max_tokens) :
    ∀ (ws chunks cur : List Str) (cnt : Nat),
      (∀ w ∈ ws, Proper w) → (∀ w ∈ cur, Proper w) →
      cnt = cur.length → cur.length ≤ max_tokens →
      (∀ s ∈ chunks, tc s ≤ max_tokens) →
      (∀ s ∈ slsGo max_tokens chunks cur cnt ws, tc s ≤ max_tokens)
      ∧ ((slsGo max_tokens chunks cur cnt ws).map words).flatten
          = (chunks.map words).flatten ++ cur ++ ws := by
  intro ws
  induction ws with
  | nil =>
    intro chunks cur cnt _ hcur hcnt hlen hchunks
    by_cases hc : cur = []
    · subst hc
      constructor
      · simpa [slsGo] using hchunks
      · simp [slsGo]
    · constructor
      · intro s hs
        simp [slsGo, hc] at hs
        rcases hs with hs | hs
        · exact hchunks s hs
        · subst hs
          rw [tc_joinWords cur hcur]
          exact hlen
      · simp [slsGo, hc, words_joinWords cur hcur]
  | cons w ws ih =>
    intro chunks cur cnt hws hcur hcnt hlen hchunks
    have hw : Proper w := hws w (by simp)
    have hws' : ∀ v ∈ ws, Proper v := fun v hv => hws v (by simp [hv])
    have hwt : Nat.max 1 (tc w) = 1 := by rw [tc_word hw]; exact Nat.max_self 1
    rw [slsGo]
    simp only [hwt]
    by_cases hbr : max_tokens < cnt + 1 ∧ cur ≠ []
    · rw [if_pos hbr]
      have hnew : ∀ s ∈ chunks ++ [joinWords cur], tc s ≤ max_tokens := by
        intro s hs
        rcases List.mem_append.mp hs with hs | hs
        · exact hchunks s hs
        · simp at hs
          subst hs
          rw [tc_joinWords cur hcur]
          exact hlen
      have := ih (chunks ++ [joinWords cur]) [w] 1 hws'
        (by intro v hv; simp at hv; subst hv; exact hw) (by simp)
        (by simpa using hmax) hnew
      refine ⟨this.1, ?_⟩
      rw [this.2]
      simp [words_joinWords cur hcur]
    · rw [if_neg hbr]
      have hlen' : (cur ++ [w]).length ≤ max_tokens := by
        by_cases hc : cur = []
        · subst hc; simpa using hmax
        · have h2 : ¬ max_tokens < cnt + 1 := by
            intro hlt; exact hbr ⟨hlt, hc⟩
          have : cnt + 1 ≤ max_tokens := Nat.le_of_not_lt h2
          simpa [hcnt] using this
      have hcur' : ∀ v ∈ cur ++ [w], Proper v := by
        intro v hv
        rcases List.mem_append.mp hv with hv | hv
        · exact hcur v hv
        · simp at hv; subst hv; exact hw
      have := ih chunks (cur ++ [w]) (cnt + 1) hws' hcur'
        (by simp [hcnt]) hlen' hchunks
      refine ⟨this.1, ?_⟩
      rw [this.2]
      simp

/-- Specification of `_split_large_segment`: every emitted sub-segment's
token count is at most `max_tokens`, and the emitted sub-segments' token
sequences concatenate to the token sequence of the input segment. -/
theorem splitLargeSegment_spec (segment : Str) (max_tokens : Nat)
    (hmax : 0 < max_tokens) :
    (∀ s ∈ splitLargeSegment segment max_tokens, tc s ≤ max_tokens)
    ∧ ((splitLargeSegment segment max_tokens).map words).flatten
        = words segment := by
  have := slsGo_spec max_tokens hmax (words segment) [] [] 0
    (words_proper segment) (by simp) (by simp) (by simp) (by simp)
  exact ⟨this.1, by simpa [splitLargeSegment] using this.2⟩

/-! ### Properties of `enforceBounds` -/

@[simp] theorem tc_nil : tc [] = 0 := rfl

/-- Invariant of the `_enforce_bounds` loop under a positive maximum: the
emitted segments and the pending buffer never exceed `max_tokens`. -/
theorem enforceGo_max (rule : ChunkRule) (hmax : 0 < rule.max_tokens) :
    ∀ (segs bounded : List Str) (buffer : Str),
      (∀ x ∈ bounded, tc x ≤ rule.max_tokens) →
      tc buffer ≤ rule.max_tokens →
      (∀ x ∈ (enforceGo rule bounded buffer segs).1, tc x ≤ rule.max_tokens)
      ∧ tc (enforceGo rule bounded buffer segs).2 ≤ rule.max_tokens := by
  intro segs
  induction segs with
  | nil => intro bounded buffer hb hbuf; exact ⟨hb, hbuf⟩
  | cons segment rest ih =>
    intro bounded buffer hb hbuf
    simp only [enforceGo]
    by_cases h1 : segment = []
    · rw [if_pos h1]; exact ih bounded buffer hb hbuf
    rw [if_neg h1]
    by_cases h2 : 0 < rule.max_tokens ∧ rule.max_tokens < tc segment
    · rw [if_pos h2]
      refine ih _ [] ?_ (by simp)
      intro x hx
      rcases List.mem_append.mp hx with hx | hx
      · by_cases hbe : buffer = []
        · rw [if_pos hbe] at hx; exact hb x hx
        · rw [if_neg hbe] at hx
          rcases List.mem_append.mp hx with hx | hx
          · exact hb x hx
          · simp at hx; subst hx; exact hbuf
      · exact (splitLargeSegment_spec segment rule.max_tokens hmax).1 x hx
    rw [if_neg h2]
    have hseg : tc segment ≤ rule.max_tokens := by
      rcases Nat.lt_or_ge rule.max_tokens (tc segment) with h | h
      · exact absurd ⟨hmax, h⟩ h2
      · exact h
    by_cases h3 : buffer = []
    · simp only [if_pos h3]
      by_cases h4 : rule.min_tokens ≤ tc segment
      · simp only [if_pos h4]
        refine ih _ [] ?_ (by simp)
        intro x hx
        rcases List.mem_append.mp hx with hx | hx
        · exact hb x hx
        · simp at hx; subst hx; exact hseg
      · simp only [if_neg h4]
        exact ih bounded segment hb hseg
    · simp only [if_neg h3]
      by_cases h4 : rule.max_tokens = 0 ∨ tc (buffer ++ ' ' :: segment) ≤ rule.max_tokens
      · simp only [if_pos h4]
        have hcomb : tc (buffer ++ ' ' :: segment) ≤ rule.max_tokens := by
          rcases h4 with h4 | h4
          · exact absurd h4 (Nat.pos_iff_ne_zero.mp hmax)
          · exact h4
        by_cases h5 : rule.min_tokens ≤ tc (buffer ++ ' ' :: segment)
        · simp only [if_pos h5]
          refine ih _ [] ?_ (by simp)
          intro x hx
          rcases List.mem_append.mp hx with hx | hx
          · exact hb x hx
          · simp at hx; subst hx; exact hcomb
        · simp only [if_neg h5]
          exact ih bounded _ hb hcomb
      · simp only [if_neg h4]
        have hb' : ∀ x ∈ bounded ++ [buffer], tc x ≤ rule.max_tokens := by
          intro x hx
          rcases List.mem_append.mp hx with hx | hx
          · exact hb x hx
          · simp at hx; subst hx; exact hbuf
        by_cases h5 : rule.min_tokens ≤ tc segment
        · simp only [if_pos h5]
          refine ih _ [] ?_ (by simp)
          intro x hx
          rcases List.mem_append.mp hx with hx | hx
          · exact hb' x hx
          · simp at hx; subst hx; exact hseg
        · simp only [if_neg h5]
          exact ih _ segment hb' hseg

/-- Specification of `_enforce_bounds` under a positive maximum: every
produced segment's token count is at most `max_tokens`. -/
theorem enforceBounds_max (segments : List Str) (rule : ChunkRule)
    (hmax : 0 < rule.max_tokens) :
    ∀ x ∈ enforceBounds segments rule, tc x ≤ rule.max_tokens := by
  intro x hx
  rw [enforceBounds] at hx
  by_cases hempty : segments = []
  · simp [hempty] at hx
  rw [if_neg hempty] at hx
  have hgo := enforceGo_max rule hmax segments [] [] (by simp) (by simp)
  set r := enforceGo rule [] [] segments with hr
  by_cases h1 : r.2 = []
  · rw [if_pos h1] at hx
    exact hgo.1 x hx
  rw [if_neg h1] at hx
  by_cases h2 : r.1 ≠ [] ∧ tc r.2 < rule.min_tokens
  · rw [if_pos h2] at hx
    by_cases h3 : rule.max_tokens = 0
      ∨ tc (r.1.getLast?.getD [] ++ ' ' :: r.2) ≤ rule.max_tokens
    · rw [if_pos h3] at hx
      rcases List.mem_append.mp hx with hx | hx
      · exact hgo.1 x (List.IsPrefix.subset (List.dropLast_prefix r.1) hx)
      · simp at hx
        subst hx
        rcases h3 with h3 | h3
        · exact absurd h3 (Nat.pos_iff_ne_zero.mp hmax)
        · exact h3
    · rw [if_neg h3] at hx
      rcases List.mem_append.mp hx with hx | hx
      · exact hgo.1 x hx
      · simp at hx; subst hx; exact hgo.2
  · rw [if_neg h2] at hx
    rcases List.mem_append.mp hx with hx | hx
    · exact hgo.1 x hx
    · simp at hx; subst hx; exact hgo.2

/-- Invariant of the `_enforce_bounds` loop when `max_tokens = 0`: every
segment emitted by the loop has at least `min_tokens` tokens (the loop
flushes the buffer only once it reaches the minimum). -/
theorem enforceGo_min_max0 (rule : ChunkRule) (hmax : rule.max_tokens = 0) :
    ∀ (segs bounded : List Str) (buffer : Str),
      (∀ x ∈ bounded, rule.min_tokens ≤ tc x) →
      (∀ x ∈ (enforceGo rule bounded buffer segs).1,
        rule.min_tokens ≤ tc x) := by
  intro segs
  induction segs with
  | nil => intro bounded buffer hb; exact hb
  | cons segment rest ih =>
    intro bounded buffer hb
    simp only [enforceGo]
    by_cases h1 : segment = []
    · rw [if_pos h1]; exact ih bounded buffer hb
    rw [if_neg h1]
    have h2 : ¬ (0 < rule.max_tokens ∧ rule.max_tokens < tc segment) := by
      rw [hmax]; simp
    rw [if_neg h2]
    by_cases h3 : buffer = []
    · simp only [if_pos h3]
      by_cases h4 : rule.min_tokens ≤ tc segment
      · simp only [if_pos h4]
        refine ih _ [] ?_
        intro x hx
        rcases List.mem_append.mp hx with hx | hx
        · exact hb x hx
        · simp at hx; subst hx; exact h4
      · simp only [if_neg h4]
        exact ih bounded segment hb
    · simp only [if_neg h3]
      have h4 : rule.max_tokens = 0
          ∨ tc (buffer ++ ' ' :: segment) ≤ rule.max_tokens := Or.inl hmax
      simp only [if_pos h4]
      by_cases h5 : rule.min_tokens ≤ tc (buffer ++ ' ' :: segment)
      · simp only [if_pos h5]
        refine ih _ [] ?_
        intro x hx
        rcases List.mem_append.mp hx with hx | hx
        · exact hb x hx
        · simp at hx; subst hx; exact h5
      · simp only [if_neg h5]
        exact ih bounded _ hb
    
/-- Specification of `_enforce_bounds` when `max_tokens = 0`: either every
produced segment reaches `min_tokens`, or the whole result is a single
(possibly short) segment. -/
theorem enforceBounds_min_max0 (segments : List Str) (rule : ChunkRule)
    (hmax : rule.max_tokens = 0) :
    (∀ x ∈ enforceBounds segments rule, rule.min_tokens ≤ tc x)
    ∨ (enforceBounds segments rule).length ≤ 1 := by
  rw [enforceBounds]
  by_cases hempty : segments = []
  · right; simp [hempty]
  rw [if_neg hempty]
  have hgo := enforceGo_min_max0 rule hmax segments [] [] (by simp)
  set r := enforceGo rule [] [] segments with hr
  by_cases h1 : r.2 = []
  · rw [if_pos h1]; exact Or.inl hgo
  rw [if_neg h1]
  by_cases h2 : r.1 ≠ [] ∧ tc r.2 < rule.min_tokens
  · rw [if_pos h2]
    have h3 : rule.max_tokens = 0
        ∨ tc (r.1.getLast?.getD [] ++ ' ' :: r.2) ≤ rule.max_tokens :=
      Or.inl hmax
    rw [if_pos h3]
    left
    intro x hx
    rcases List.mem_append.mp hx with hx | hx
    · exact hgo x (List.IsPrefix.subset (List.dropLast_prefix r.1) hx)
    · simp at hx
      subst hx
      have hlast : r.1.getLast?.getD [] ∈ r.1 := by
        cases hl : r.1.getLast? with
        | none => exact absurd (List.getLast?_eq_none_iff.mp hl) h2.1
        | some y =>
          obtain ⟨hne, hy⟩ :=
            List.mem_getLast?_eq_getLast (l := r.1) (x := y) (by simp [hl])
          simp only [Option.getD_some]
          rw [hy]
          exact List.getLast_mem hne
      calc rule.min_tokens ≤ tc (r.1.getLast?.getD []) := hgo _ hlast
        _ ≤ tc (r.1.getLast?.getD []) + tc r.2 := Nat.le_add_right _ _
        _ = tc (r.1.getLast?.getD [] ++ ' ' :: r.2) :=
            (tc_append_space _ _).symm
  · rw [if_neg h2]
    by_cases h4 : rule.min_tokens ≤ tc r.2
    · left
      intro x hx
      rcases List.mem_append.mp hx with hx | hx
      · exact hgo x hx
      · simp at hx; subst hx; exact h4
    · have h5 : r.1 = [] := by
        by_contra h5
        exact h2 ⟨h5, Nat.lt_of_not_ge h4⟩
      right
      simp [h5]

/-- With both bounds disabled the `_enforce_bounds` loop appends each
non-empty segment unchanged. -/
theorem enforceGo_zero (rule : ChunkRule) (hmin : rule.min_tokens = 0)
    (hmax : rule.max_tokens = 0) :
    ∀ (segs bounded : List Str),
      enforceGo rule bounded [] segs
        = (bounded ++ segs.filter (fun s => s ≠ []), []) := by
  intro segs
  induction segs with
  | nil => intro bounded; simp [enforceGo]
  | cons segment rest ih =>
    intro bounded
    simp only [enforceGo]
    by_cases h1 : segment = []
    · rw [if_pos h1, ih]
      simp [h1]
    rw [if_neg h1]
    have h2 : ¬ (0 < rule.max_tokens ∧ rule.max_tokens < tc segment) := by
      rw [hmax]; simp
    rw [if_neg h2]
    have h4 : rule.min_tokens ≤ tc segment := by rw [hmin]; exact Nat.zero_le _
    simp [h4, ih, h1]

/-- Specification of `_enforce_bounds` with disabled bounds: a pass-through
that drops purely empty segments. -/
theorem enforceBounds_zero (segments : List Str) (rule : ChunkRule)
    (hmin : rule.min_tokens = 0) (hmax : rule.max_tokens = 0) :
    enforceBounds segments rule = segments.filter (fun s => s ≠ []) := by
  rw [enforceBounds]
  by_cases hempty : segments = []
  · simp [hempty]
  rw [if_neg hempty, enforceGo_zero rule hmin hmax segments []]
  simp

/-! ### Properties of `applyOverlapAndWrap` -/

@[simp] theorem applyOverlapAndWrap_length (segments : List Str)
    (rule : ChunkRule) :
    (applyOverlapAndWrap segments rule).length = segments.length := by
  simp [applyOverlapAndWrap]

theorem applyOverlapAndWrap_getD (segments : List Str) (rule : ChunkRule)
    (i : Nat) (hi : i < segments.length) :
    (applyOverlapAndWrap segments rule).getD i default
      = wrapOne segments rule i := by
  have hlen : i < (applyOverlapAndWrap segments rule).length := by simpa using hi
  rw [List.getD_eq_getElem _ _ hlen]
  simp [applyOverlapAndWrap]

theorem mem_applyOverlapAndWrap {ch : Chunk} {segments : List Str}
    {rule : ChunkRule} :
    ch ∈ applyOverlapAndWrap segments rule
      ↔ ∃ i, i < segments.length ∧ ch = wrapOne segments rule i := by
  simp only [applyOverlapAndWrap, List.mem_map, List.mem_range]
  constructor
  · rintro ⟨i, hi, rfl⟩; exact ⟨i, hi, rfl⟩
  · rintro ⟨i, hi, rfl⟩; exact ⟨i, hi, rfl⟩

/-- Under a positive maximum, a wrapped chunk never exceeds `max_tokens`
when its pre-overlap segment does not: the injector only accepts an
overlap candidate that stays within the bound. -/
theorem wrapOne_token_count_le (segments : List Str) (rule : ChunkRule)
    (i : Nat) (hmax : 0 < rule.max_tokens)
    (hsegs : ∀ s ∈ segments, tc s ≤ rule.max_tokens)
    (hi : i < segments.length) :
    (wrapOne segments rule i).token_count ≤ rule.max_tokens := by
  have hmem : segments.getD i [] ∈ segments := by
    rw [List.getD_eq_getElem segments [] hi]
    exact List.getElem_mem hi
  have hseg : tc (segments.getD i []) ≤ rule.max_tokens := hsegs _ hmem
  rw [wrapOne]
  by_cases h1 : 0 < rule.overlap ∧ 0 < i
  · simp only [if_pos h1]
    set overlapWords := overlapWindow rule (segments.getD (i - 1) []) with how
    by_cases h2 : overlapWords = []
    · simp only [if_pos h2]; exact hseg
    simp only [if_neg h2]
    by_cases h3 : rule.max_tokens = 0
        ∨ tc (joinWords overlapWords ++ ' ' :: segments.getD i [])
            ≤ rule.max_tokens
    · simp only [if_pos h3]
      rcases h3 with h3 | h3
      · exact absurd h3 (Nat.pos_iff_ne_zero.mp hmax)
      · exact h3
    · simp only [if_neg h3]; exact hseg
  · simp only [if_neg h1]; exact hseg

/-- A wrapped chunk's token count never falls below that of its pre-overlap
segment: overlap injection only prepends tokens. -/
theorem wrapOne_token_count_ge (segments : List Str) (rule : ChunkRule)
    (i : Nat) :
    tc (segments.getD i []) ≤ (wrapOne segments rule i).token_count := by
  rw [wrapOne]
  by_cases h1 : 0 < rule.overlap ∧ 0 < i
  · simp only [if_pos h1]
    set overlapWords := overlapWindow rule (segments.getD (i - 1) []) with how
    by_cases h2 : overlapWords = []
    · simp only [if_pos h2]
      exact Nat.le_refl _
    simp only [if_neg h2]
    by_cases h3 : rule.max_tokens = 0
        ∨ tc (joinWords overlapWords ++ ' ' :: segments.getD i [])
            ≤ rule.max_tokens
    · simp only [if_pos h3]
      rw [tc_append_space]
      exact Nat.le_add_left _ _
    · simp only [if_neg h3]
      exact Nat.le_refl _
  · simp only [if_neg h1]
    exact Nat.le_refl _

/-- With `overlap = 0` the wrapper emits every segment unchanged. -/
theorem wrapOne_overlap0 (segments : List Str) (rule : ChunkRule) (i : Nat)
    (h : rule.overlap = 0) :
    wrapOne segments rule i
      = { text := segments.getD i [], chunk_index := i, overlap_tokens := 0,
          token_count := tc (segments.getD i []) } := by
  rw [wrapOne]
  have h1 : ¬ (0 < rule.overlap ∧ 0 < i) := by rw [h]; simp
  simp only [if_neg h1]

/-- With `overlap = 0` the chunk texts are exactly the segments. -/
theorem applyOverlapAndWrap_texts_overlap0 (segments : List Str)
    (rule : ChunkRule) (h : rule.overlap = 0) :
    (applyOverlapAndWrap segments rule).map Chunk.text = segments := by
  apply List.ext_getElem
  · simp
  · intro i h1 h2
    simp only [applyOverlapAndWrap, List.getElem_map, List.getElem_range]
    rw [wrapOne_overlap0 segments rule i h]
    simp only []
    rw [List.getD_eq_getElem segments []
      (by simpa [applyOverlapAndWrap] using h2)]

/-! ### Unfolding a successful `split` call -/

/-- A successful `split` call either hit the empty-text early return or ran
the initial split, the bounds enforcer and the overlap wrapper. -/
theorem split_ok_cases {c : Chunker} {text : Str} {meta : Meta}
    {chunks : List Chunk} (h : c.split text meta = Except.ok chunks) :
    chunks = []
    ∨ ∃ raw, c.initialSplitE text (c.splitRule meta).strategy = Except.ok raw
        ∧ chunks
            = applyOverlapAndWrap (enforceBounds raw (c.splitRule meta))
                (c.splitRule meta) := by
  by_cases ht : text = []
  · left
    rw [Chunker.split, if_pos ht] at h
    exact (Except.ok.inj h).symm
  · rw [Chunker.split, if_neg ht] at h
    cases hini : c.initialSplitE text (c.splitRule meta).strategy with
    | error e =>
      rw [hini] at h
      exact absurd h (by simp)
    | ok raw =>
      rw [hini] at h
      exact Or.inr ⟨raw, rfl, (Except.ok.inj h).symm⟩

/-! ### Shared concrete instances used by witnesses -/

/-- The registry binding the claims exercise: the paragraph strategy name
bound to `_split_by_paragraph`, exactly as `_register_default_strategies`
installs it. -/
def regParagraph : List (Str × (Str → List Str)) :=
  [(byParagraphName, splitByParagraph)]

/-- A sample document-type key. -/
def noteKey : Str := ofStr ("note")

/-- A sample metadata map carrying that document type. -/
def metaNote : Meta := [(docTypeKey, noteKey)]

/-- A chunker whose rule table binds the sample document type to `r`. -/
def chunkerWith (r : ChunkRule) : Chunker := ⟨[(noteKey, r)], regParagraph⟩

/-! ### Claim theorems -/

/-- Claim C1: for every split call with a rule where `max_tokens > 0`,
every segment produced by the bounds enforcer (the chunk's pre-overlap
text) has a token count at most `max_tokens`, and every emitted chunk's
final `token_count` (after overlap injection) is at most
`max_tokens + rule.overlap`. -/
theorem c1_token_bound_invariant (c : Chunker) (text : Str) (meta : Meta)
    (rule : ChunkRule) (raw : List Str) (chunks : List Chunk)
    (hrule : c.splitRule meta = rule) (hmax : 0 < rule.max_tokens)
    (hsplit : c.split text meta = Except.ok chunks) :
    (∀ seg ∈ enforceBounds raw rule, tc seg ≤ rule.max_tokens)
    ∧ ∀ ch ∈ chunks, ch.token_count ≤ rule.max_tokens + rule.overlap := by
  constructor
  · exact enforceBounds_max raw rule hmax
  · intro ch hch
    rcases split_ok_cases hsplit with hnil | ⟨raw2, hini, hchunks⟩
    · subst hnil; simp at hch
    · subst hchunks
      rw [hrule] at hch
      obtain ⟨i, hi, rfl⟩ := mem_applyOverlapAndWrap.mp hch
      have hle := wrapOne_token_count_le (enforceBounds raw2 rule) rule i
        hmax (enforceBounds_max raw2 rule hmax) hi
      exact Nat.le_trans hle (Nat.le_add_right _ _)

/-- The rule of claim C1's witness. -/
def c1Rule : ChunkRule :=
  { strategy := byParagraphName, min_tokens := 0, max_tokens := 3,
    overlap := 1 }

/-- The input text of claim C1's witness. -/
def c1Text : Str := ofStr ("a b\n\nc d")

/-- The chunks claim C1's witness observes. -/
def c1Chunks : List Chunk :=
  [{ text := ofStr ("a b"), chunk_index := 0, overlap_tokens := 0,
     token_count := 2 },
   { text := ofStr ("b c d"), chunk_index := 1, overlap_tokens := 1,
     token_count := 3 }]

/-- Witness for claim C1 at a concrete split call. -/
theorem c1_token_bound_invariant_witness :
    ((chunkerWith c1Rule).splitRule metaNote = c1Rule
      ∧ 0 < c1Rule.max_tokens
      ∧ (chunkerWith c1Rule).split c1Text metaNote = Except.ok c1Chunks)
    ∧ ((∀ seg ∈ enforceBounds [ofStr ("e f")] c1Rule,
          tc seg ≤ c1Rule.max_tokens)
      ∧ ∀ ch ∈ c1Chunks,
          ch.token_count ≤ c1Rule.max_tokens + c1Rule.overlap) :=
  ⟨⟨rfl, by decide, rfl⟩,
    c1_token_bound_invariant (chunkerWith c1Rule) c1Text metaNote c1Rule
      [ofStr ("e f")] c1Chunks rfl (by decide) rfl⟩

/-- Claim C2: for every input segment whose token count exceeds a nonzero
`max_tokens`, the oversize-split step emits sub-segments none of which
exceeds `max_tokens`, and the whitespace-token concatenation of the
emitted sub-segments equals the token sequence of the original segment. -/
theorem c2_oversize_split (segment : Str) (max_tokens : Nat)
    (hmax : 0 < max_tokens) (hbig : max_tokens < tc segment) :
    (∀ s ∈ splitLargeSegment segment max_tokens, tc s ≤ max_tokens)
    ∧ ((splitLargeSegment segment max_tokens).map words).flatten
        = words segment :=
  splitLargeSegment_spec segment max_tokens hmax

/-- Witness for claim C2 at a concrete oversized segment. -/
theorem c2_oversize_split_witness :
    (0 < 2 ∧ 2 < tc (ofStr ("a b c")))
    ∧ ((∀ s ∈ splitLargeSegment (ofStr ("a b c")) 2, tc s ≤ 2)
      ∧ ((splitLargeSegment (ofStr ("a b c")) 2).map words).flatten
          = words (ofStr ("a b c"))) :=
  ⟨⟨by decide, by decide⟩,
    c2_oversize_split (ofStr ("a b c")) 2 (by decide) (by decide)⟩

/-- Claim C10: for every metadata map, calling `split` with empty input
text returns an empty chunk sequence and raises no error. -/
theorem c10_empty_input (c : Chunker) (meta : Meta) :
    c.split [] meta = Except.ok [] := by
  rw [Chunker.split, if_pos rfl]

/-- The overlap window always holds the last
`min(overlap, token_count(prev))` words of the previous segment. -/
theorem overlapWindow_length (rule : ChunkRule) (prev : Str) :
    (overlapWindow rule prev).length = min rule.overlap (tc prev) := by
  rw [overlapWindow]
  by_cases h : rule.overlap ≤ (words prev).length
  · rw [if_pos h, List.length_drop]
    have : tc prev = (words prev).length := rfl
    omega
  · rw [if_neg h]
    have : tc prev = (words prev).length := rfl
    omega

/-- Claim C5: under a positive `max_tokens`, an overlap candidate that
would exceed the bound is rejected — the chunk keeps its bare segment text
with `overlap_tokens = 0` — and consequently every chunk a split call
emits has `token_count` at most `max_tokens`. -/
theorem c5_overlap_guard (rule : ChunkRule) (hmax : 0 < rule.max_tokens) :
    (∀ (segments : List Str) (idx : Nat), 0 < rule.overlap → 0 < idx →
      overlapWindow rule (segments.getD (idx - 1) []) ≠ [] →
      rule.max_tokens
          < tc (joinWords (overlapWindow rule (segments.getD (idx - 1) []))
              ++ ' ' :: segments.getD idx []) →
      wrapOne segments rule idx
        = { text := segments.getD idx [], chunk_index := idx,
            overlap_tokens := 0, token_count := tc (segments.getD idx []) })
    ∧ ∀ (c : Chunker) (text : Str) (meta : Meta) (chunks : List Chunk),
        c.splitRule meta = rule → c.split text meta = Except.ok chunks →
        ∀ ch ∈ chunks, ch.token_count ≤ rule.max_tokens := by
  constructor
  · intro segments idx hov hidx hne hgt
    rw [wrapOne]
    simp only [if_pos (And.intro hov hidx), if_neg hne]
    have h3 : ¬ (rule.max_tokens = 0
        ∨ tc (joinWords (overlapWindow rule (segments.getD (idx - 1) []))
            ++ ' ' :: segments.getD idx []) ≤ rule.max_tokens) := by
      push_neg
      exact ⟨Nat.pos_iff_ne_zero.mp hmax, hgt⟩
    simp only [if_neg h3]
  · intro c text meta chunks hrule hsplit ch hch
    rcases split_ok_cases hsplit with hnil | ⟨raw, hini, hchunks⟩
    · subst hnil; simp at hch
    · subst hchunks
      rw [hrule] at hch
      obtain ⟨i, hi, rfl⟩ := mem_applyOverlapAndWrap.mp hch
      exact wrapOne_token_count_le (enforceBounds raw rule) rule i hmax
        (enforceBounds_max raw rule hmax) hi

/-- The rule of claim C5's witness. -/
def c5Rule : ChunkRule :=
  { strategy := byParagraphName, min_tokens := 0, max_tokens := 2,
    overlap := 1 }

/-- The segments of claim C5's witness. -/
def c5Segs : List Str := [ofStr ("a b"), ofStr ("c d")]

/-- The input text of claim C5's witness. -/
def c5Text : Str := ofStr ("a b\n\nc d")

/-- The chunks claim C5's witness observes: the overlap candidate would
have 3 tokens, above the bound 2, so no overlap is injected. -/
def c5Chunks : List Chunk :=
  [{ text := ofStr ("a b"), chunk_index := 0, overlap_tokens := 0,
     token_count := 2 },
   { text := ofStr ("c d"), chunk_index := 1, overlap_tokens := 0,
     token_count := 2 }]

/-- Witness for claim C5 at a concrete blocked overlap. -/
theorem c5_overlap_guard_witness :
    (0 < c5Rule.max_tokens ∧ 0 < c5Rule.overlap
      ∧ overlapWindow c5Rule (c5Segs.getD 0 []) ≠ []
      ∧ c5Rule.max_tokens
          < tc (joinWords (overlapWindow c5Rule (c5Segs.getD 0 []))
              ++ ' ' :: c5Segs.getD 1 [])
      ∧ (chunkerWith c5Rule).splitRule metaNote = c5Rule
      ∧ (chunkerWith c5Rule).split c5Text metaNote = Except.ok c5Chunks)
    ∧ (wrapOne c5Segs c5Rule 1
        = { text := c5Segs.getD 1 [], chunk_index := 1,
            overlap_tokens := 0, token_count := tc (c5Segs.getD 1 []) })
    ∧ ∀ ch ∈ c5Chunks, ch.token_count ≤ c5Rule.max_tokens :=
  ⟨⟨by decide, by decide, by decide, by decide, rfl, rfl⟩,
    (c5_overlap_guard c5Rule (by decide)).1 c5Segs 1 (by decide) (by decide)
      (by decide) (by decide),
    (c5_overlap_guard c5Rule (by decide)).2 (chunkerWith c5Rule) c5Text
      metaNote c5Chunks rfl rfl⟩

/-- Claim C3 (amended): with a positive `min_tokens` and the maximum
disabled (`max_tokens = 0`), every chunk a split call emits except
possibly the last has `token_count` at least `min_tokens`.  (With
`max_tokens > 0` the claim fails, see the counterexample: an oversize
split can leave a short remainder in the middle of the sequence.) -/
theorem c3_min_bound_max0 (c : Chunker) (text : Str) (meta : Meta)
    (rule : ChunkRule) (chunks : List Chunk)
    (hrule : c.splitRule meta = rule) (hmin : 0 < rule.min_tokens)
    (hmax : rule.max_tokens = 0)
    (hsplit : c.split text meta = Except.ok chunks) :
    ∀ i, i + 1 < chunks.length →
      rule.min_tokens ≤ (chunks.getD i default).token_count := by
  intro i hi
  rcases split_ok_cases hsplit with hnil | ⟨raw, hini, hchunks⟩
  · subst hnil; simp at hi
  · subst hchunks
    rw [hrule] at hi ⊢
    set segs := enforceBounds raw rule with hsegs
    have hi2 : i < segs.length := by
      have := applyOverlapAndWrap_length segs rule
      omega
    rw [applyOverlapAndWrap_getD segs rule i hi2]
    have hge := wrapOne_token_count_ge segs rule i
    rcases enforceBounds_min_max0 raw rule hmax with hall | hone
    · have hmem : segs.getD i [] ∈ segs := by
        rw [List.getD_eq_getElem segs [] hi2]
        exact List.getElem_mem hi2
      exact Nat.le_trans (hall _ hmem) hge
    · exfalso
      have := applyOverlapAndWrap_length segs rule
      rw [← hsegs] at hone
      omega

/-- The rule of the counterexample to claim C3 as stated. -/
def c3Rule : ChunkRule :=
  { strategy := byParagraphName, min_tokens := 2, max_tokens := 3,
    overlap := 0 }

/-- The input text of the counterexample to claim C3. -/
def c3Text : Str := ofStr ("a b c d\n\ne f")

/-- The chunks the counterexample split call produces: the oversize split
of the four-word paragraph leaves the one-token remainder in the middle of
the sequence. -/
def c3Chunks : List Chunk :=
  [{ text := ofStr ("a b c"), chunk_index := 0, overlap_tokens := 0,
     token_count := 3 },
   { text := ofStr ("d"), chunk_index := 1, overlap_tokens := 0,
     token_count := 1 },
   { text := ofStr ("e f"), chunk_index := 2, overlap_tokens := 0,
     token_count := 2 }]

/-- Counterexample to claim C3 as stated: a split call with
`min_tokens = 2 > 0` emits three chunks whose middle one has
`token_count = 1 < 2`, so a non-final chunk violates the minimum. -/
theorem c3_counterexample :
    0 < c3Rule.min_tokens
    ∧ (chunkerWith c3Rule).splitRule metaNote = c3Rule
    ∧ (chunkerWith c3Rule).split c3Text metaNote = Except.ok c3Chunks
    ∧ 1 + 1 < c3Chunks.length
    ∧ (c3Chunks.getD 1 default).token_count < c3Rule.min_tokens :=
  ⟨by decide, rfl, rfl, by decide, by decide⟩

/-- The rule of claim C3's (amended) witness. -/
def c3aRule : ChunkRule :=
  { strategy := byParagraphName, min_tokens := 1, max_tokens := 0,
    overlap := 0 }

/-- The input text of claim C3's (amended) witness. -/
def c3aText : Str := ofStr ("a" ++ "\n\n" ++ "b")

/-- The chunks claim C3's (amended) witness observes. -/
def c3aChunks : List Chunk :=
  [{ text := ofStr ("a"), chunk_index := 0, overlap_tokens := 0,
     token_count := 1 },
   { text := ofStr ("b"), chunk_index := 1, overlap_tokens := 0,
     token_count := 1 }]

/-- Witness for claim C3 (amended) at a concrete split call. -/
theorem c3_min_bound_max0_witness :
    ((chunkerWith c3aRule).splitRule metaNote = c3aRule
      ∧ 0 < c3aRule.min_tokens ∧ c3aRule.max_tokens = 0
      ∧ (chunkerWith c3aRule).split c3aText metaNote = Except.ok c3aChunks)
    ∧ ∀ i, i + 1 < c3aChunks.length →
        c3aRule.min_tokens ≤ (c3aChunks.getD i default).token_count :=
  ⟨⟨rfl, by decide, rfl, rfl⟩,
    c3_min_bound_max0 (chunkerWith c3aRule) c3aText metaNote c3aRule
      c3aChunks rfl (by decide) rfl rfl⟩

/-- Claim C4 (amended): the first segment is emitted unchanged with
`overlap_tokens = 0`; a subsequent segment receives the last
`min(overlap, token_count(prev))` words of the pre-overlap previous
segment, joined by single spaces and prepended with one separating space,
with `overlap_tokens` recording their number — but only when that window
is non-empty and the resulting text stays within `max_tokens` (or
`max_tokens = 0`); otherwise the segment is emitted unchanged with
`overlap_tokens = 0`. -/
theorem c4_overlap_injection (segments : List Str) (rule : ChunkRule)
    (i : Nat) (hi : i < segments.length) :
    (i = 0 →
      (applyOverlapAndWrap segments rule).getD 0 default
        = { text := segments.getD 0 [], chunk_index := 0,
            overlap_tokens := 0, token_count := tc (segments.getD 0 []) })
    ∧ (0 < i → 0 < rule.overlap →
        (overlapWindow rule (segments.getD (i - 1) [])).length
            = min rule.overlap (tc (segments.getD (i - 1) []))
        ∧ (overlapWindow rule (segments.getD (i - 1) []) ≠ [] →
            (rule.max_tokens = 0
              ∨ tc (joinWords (overlapWindow rule (segments.getD (i - 1) []))
                  ++ ' ' :: segments.getD i []) ≤ rule.max_tokens) →
            (applyOverlapAndWrap segments rule).getD i default
              = { text :=
                    joinWords (overlapWindow rule (segments.getD (i - 1) []))
                      ++ ' ' :: segments.getD i [],
                  chunk_index := i,
                  overlap_tokens :=
                    (overlapWindow rule (segments.getD (i - 1) [])).length,
                  token_count :=
                    tc (joinWords
                        (overlapWindow rule (segments.getD (i - 1) []))
                      ++ ' ' :: segments.getD i []) })
        ∧ ((overlapWindow rule (segments.getD (i - 1) []) = []
              ∨ (0 < rule.max_tokens ∧ rule.max_tokens
                  < tc (joinWords
                      (overlapWindow rule (segments.getD (i - 1) []))
                    ++ ' ' :: segments.getD i []))) →
            (applyOverlapAndWrap segments rule).getD i default
              = { text := segments.getD i [], chunk_index := i,
                  overlap_tokens := 0,
                  token_count := tc (segments.getD i []) })) := by
  constructor
  · intro h0
    subst h0
    rw [applyOverlapAndWrap_getD segments rule 0 hi, wrapOne]
    have h1 : ¬ (0 < rule.overlap ∧ (0 : Nat) < 0) := by simp
    simp only [if_neg h1]
  · intro hip hov
    refine ⟨overlapWindow_length rule _, ?_, ?_⟩
    · intro hne hcond
      rw [applyOverlapAndWrap_getD segments rule i hi, wrapOne]
      simp only [if_pos (And.intro hov hip), if_neg hne, if_pos hcond]
    · intro hrej
      rw [applyOverlapAndWrap_getD segments rule i hi, wrapOne]
      simp only [if_pos (And.intro hov hip)]
      rcases hrej with hempty | hblock
      · simp only [if_pos hempty]
      · by_cases hempty : overlapWindow rule (segments.getD (i - 1) []) = []
        · simp only [if_pos hempty]
        · simp only [if_neg hempty]
          have h3 : ¬ (rule.max_tokens = 0
              ∨ tc (joinWords (overlapWindow rule (segments.getD (i - 1) []))
                  ++ ' ' :: segments.getD i []) ≤ rule.max_tokens) := by
            push_neg
            exact ⟨Nat.pos_iff_ne_zero.mp hblock.1, hblock.2⟩
          simp only [if_neg h3]

/-- The rule of the counterexample to claim C4 as stated. -/
def c4Rule : ChunkRule :=
  { strategy := byParagraphName, min_tokens := 0, max_tokens := 2,
    overlap := 1 }

/-- Counterexample to claim C4 as stated: with `overlap = 1 > 0` the claim
predicts the second chunk to carry the previous segment's last word as a
prefix and `overlap_tokens = 1`; the code, whose candidate would exceed
`max_tokens = 2`, emits the segment unchanged with `overlap_tokens = 0`. -/
theorem c4_counterexample :
    applyOverlapAndWrap [ofStr ("a b"), ofStr ("c d")] c4Rule
      = [{ text := ofStr ("a b"), chunk_index := 0, overlap_tokens := 0,
           token_count := 2 },
         { text := ofStr ("c d"), chunk_index := 1, overlap_tokens := 0,
           token_count := 2 }]
    ∧ 0 < c4Rule.overlap
    ∧ min c4Rule.overlap (tc (ofStr ("a b"))) = 1
    ∧ ((applyOverlapAndWrap [ofStr ("a b"), ofStr ("c d")] c4Rule).getD 1
        default).overlap_tokens ≠ min c4Rule.overlap (tc (ofStr ("a b")))
    ∧ ((applyOverlapAndWrap [ofStr ("a b"), ofStr ("c d")] c4Rule).getD 1
        default).text
        ≠ joinWords (overlapWindow c4Rule (ofStr ("a b")))
            ++ ' ' :: ofStr ("c d") := by
  refine ⟨by decide, by decide, by decide, by decide, by decide⟩

/-- The rule of claim C4's (amended) witness: `max_tokens` disabled, so
the overlap candidate is accepted. -/
def c4wRule : ChunkRule :=
  { strategy := byParagraphName, min_tokens := 0, max_tokens := 0,
    overlap := 1 }

/-- The segments of claim C4's (amended) witness. -/
def c4wSegs : List Str := [ofStr ("a b"), ofStr ("c d")]

/-- Witness for claim C4 (amended) at concrete segments: the first chunk
is unchanged, the second receives the one-word overlap window. -/
theorem c4_overlap_injection_witness :
    ((1 : Nat) < c4wSegs.length ∧ 0 < c4wRule.overlap
      ∧ overlapWindow c4wRule (c4wSegs.getD 0 []) ≠ []
      ∧ c4wRule.max_tokens = 0)
    ∧ (applyOverlapAndWrap c4wSegs c4wRule).getD 0 default
        = { text := c4wSegs.getD 0 [], chunk_index := 0,
            overlap_tokens := 0, token_count := tc (c4wSegs.getD 0 []) }
    ∧ (applyOverlapAndWrap c4wSegs c4wRule).getD 1 default
        = { text := joinWords (overlapWindow c4wRule (c4wSegs.getD 0 []))
              ++ ' ' :: c4wSegs.getD 1 [],
            chunk_index := 1,
            overlap_tokens :=
              (overlapWindow c4wRule (c4wSegs.getD 0 [])).length,
            token_count :=
              tc (joinWords (overlapWindow c4wRule (c4wSegs.getD 0 []))
                ++ ' ' :: c4wSegs.getD 1 []) } :=
  ⟨⟨by decide, by decide, by decide, rfl⟩,
    (c4_overlap_injection c4wSegs c4wRule 0 (by decide)).1 rfl,
    ((c4_overlap_injection c4wSegs c4wRule 1 (by decide)).2 (by decide)
      (by decide)).2.1 (by decide) (Or.inl rfl)⟩

/-- Claim C6: `ChunkRule` construction fails validation exactly when a
field is negative or `min_tokens > max_tokens` while `max_tokens > 0`;
every other non-negative combination succeeds, and a successful
construction stores the given values unclamped. -/
theorem c6_rule_validation (strategy : Str) (mi ma ov : Int) :
    ((mkChunkRule strategy mi ma ov).isOk = true
      ↔ (0 ≤ mi ∧ 0 ≤ ma ∧ 0 ≤ ov ∧ (mi ≤ ma ∨ ma = 0)))
    ∧ ∀ r, mkChunkRule strategy mi ma ov = Except.ok r →
        r.strategy = strategy ∧ (r.min_tokens : Int) = mi
        ∧ (r.max_tokens : Int) = ma ∧ (r.overlap : Int) = ov := by
  constructor
  · unfold mkChunkRule
    by_cases h1 : mi < 0 ∨ ma < 0
    · rw [if_pos h1]
      simp only [Except.isOk]
      constructor
      · intro h; exact Bool.noConfusion h
      · intro h; omega
    rw [if_neg h1]
    by_cases h2 : mi > ma ∧ ma > 0
    · rw [if_pos h2]
      simp only [Except.isOk]
      constructor
      · intro h; exact Bool.noConfusion h
      · intro h; omega
    rw [if_neg h2]
    by_cases h3 : ov < 0
    · rw [if_pos h3]
      simp only [Except.isOk]
      constructor
      · intro h; exact Bool.noConfusion h
      · intro h; omega
    rw [if_neg h3]
    simp only [Except.isOk]
    constructor
    · intro _; omega
    · intro _; rfl
  · intro r hr
    unfold mkChunkRule at hr
    by_cases h1 : mi < 0 ∨ ma < 0
    · rw [if_pos h1] at hr; exact absurd hr (by simp)
    rw [if_neg h1] at hr
    by_cases h2 : mi > ma ∧ ma > 0
    · rw [if_pos h2] at hr; exact absurd hr (by simp)
    rw [if_neg h2] at hr
    by_cases h3 : ov < 0
    · rw [if_pos h3] at hr; exact absurd hr (by simp)
    rw [if_neg h3] at hr
    obtain rfl := (Except.ok.inj hr).symm
    push_neg at h1 h3
    refine ⟨rfl, ?_, ?_, ?_⟩
    · exact Int.toNat_of_nonneg h1.1
    · exact Int.toNat_of_nonneg h1.2
    · exact Int.toNat_of_nonneg h3

/-- Witness for claim C6 at the built-in default bounds. -/
theorem c6_rule_validation_witness :
    (mkChunkRule byParagraphName 50 300 20).isOk = true :=
  (c6_rule_validation byParagraphName 50 300 20).1.mpr
    ⟨by decide, by decide, by decide, Or.inl (by decide)⟩

/-- Claim C7: for a split call using the paragraph strategy with all
bounds and overlap disabled, the emitted chunk texts are exactly the
trimmed non-empty paragraphs of the input, in order. -/
theorem c7_paragraph_roundtrip (c : Chunker) (text : Str) (meta : Meta)
    (chunks : List Chunk)
    (hreg : c.registry.lookup byParagraphName = some splitByParagraph)
    (hrule : c.splitRule meta
        = { strategy := byParagraphName, min_tokens := 0, max_tokens := 0,
            overlap := 0 })
    (hsplit : c.split text meta = Except.ok chunks) :
    chunks.map Chunk.text = splitByParagraph text := by
  by_cases ht : text = []
  · subst ht
    rw [Chunker.split, if_pos rfl] at hsplit
    obtain rfl := (Except.ok.inj hsplit).symm
    rfl
  · rw [Chunker.split, if_neg ht] at hsplit
    have hini : c.initialSplitE text (c.splitRule meta).strategy
        = Except.ok (splitByParagraph text) := by
      rw [hrule]
      unfold Chunker.initialSplitE
      simp [hreg]
    rw [hini] at hsplit
    obtain rfl := (Except.ok.inj hsplit).symm
    rw [hrule]
    rw [enforceBounds_zero _ _ rfl rfl,
      applyOverlapAndWrap_texts_overlap0 _ _ rfl]
    apply List.filter_eq_self.mpr
    intro p hp
    exact (List.mem_filter.mp hp).2

/-- The rule of claim C7's witness. -/
def c7Rule : ChunkRule :=
  { strategy := byParagraphName, min_tokens := 0, max_tokens := 0,
    overlap := 0 }

/-- The input text of claim C7's witness (the spec's first example). -/
def c7Text : Str := ofStr ("A." ++ "\n\n" ++ "B.")

/-- The chunks claim C7's witness observes. -/
def c7Chunks : List Chunk :=
  [{ text := ofStr ("A."), chunk_index := 0, overlap_tokens := 0,
     token_count := 1 },
   { text := ofStr ("B."), chunk_index := 1, overlap_tokens := 0,
     token_count := 1 }]

/-- Witness for claim C7 at a concrete two-paragraph input. -/
theorem c7_paragraph_roundtrip_witness :
    ((chunkerWith c7Rule).registry.lookup byParagraphName
        = some splitByParagraph
      ∧ (chunkerWith c7Rule).splitRule metaNote = c7Rule
      ∧ (chunkerWith c7Rule).split c7Text metaNote = Except.ok c7Chunks)
    ∧ c7Chunks.map Chunk.text = splitByParagraph c7Text :=
  ⟨⟨rfl, rfl, rfl⟩,
    c7_paragraph_roundtrip (chunkerWith c7Rule) c7Text metaNote c7Chunks
      rfl rfl rfl⟩

/-- The rule stored under the `default` key in the counterexample to
claim C8. -/
def c8DefRule : ChunkRule :=
  { strategy := byParagraphName, min_tokens := 10, max_tokens := 20,
    overlap := 5 }

/-- A chunker whose loaded rule table holds only an entry keyed
`default`. -/
def c8Chunker : Chunker := ⟨[(defaultKey, c8DefRule)], regParagraph⟩

/-- Counterexample to claim C8 as stated: `BaseChunker.split` resolves a
missing document type straight to the built-in default rule, ignoring the
table entry keyed `default` even though it is present. -/
theorem c8_counterexample :
    c8Chunker.rules.lookup (ofStr ("email")) = none
    ∧ c8Chunker.rules.lookup defaultKey = some c8DefRule
    ∧ c8Chunker.selectRule (ofStr ("email")) = defaultRule
    ∧ defaultRule ≠ c8DefRule :=
  ⟨rfl, rfl, rfl, by decide⟩

/-- Claim C8 (amended): the repository has two resolvers with different
fallback chains.  `BaseChunker.split` resolves `doc_type` against its
table and on a miss returns the built-in default rule directly, never
consulting a table entry keyed `default`; `rules.get_rule` resolves
`doc_type`, falls back to the `default` entry, and raises `KeyError`
only when both are missing. -/
theorem c8_rule_resolution (c : Chunker) (table : List (Str × RuleV2))
    (dt : Str) :
    (∀ r, c.rules.lookup dt = some r → c.selectRule dt = r)
    ∧ (c.rules.lookup dt = none → c.selectRule dt = defaultRule)
    ∧ (∀ r, table.lookup dt = some r → rulesGet table dt = Except.ok r)
    ∧ (table.lookup dt = none →
        ∀ r, table.lookup defaultKey = some r →
          rulesGet table dt = Except.ok r)
    ∧ (table.lookup dt = none → table.lookup defaultKey = none →
        rulesGet table dt
          = Except.error (ofStr ("KeyError: no rule and no default"))) := by
  refine ⟨?_, ?_, ?_, ?_, ?_⟩
  · intro r h
    unfold Chunker.selectRule
    rw [h]
    rfl
  · intro h
    unfold Chunker.selectRule
    rw [h]
    rfl
  · intro r h
    unfold rulesGet
    rw [h]
  · intro h r h2
    unfold rulesGet
    rw [h, h2]
  · intro h h2
    unfold rulesGet
    rw [h, h2]

/-- The rules.py table of claim C8's witness: only a `default` entry. -/
def c8V2 : RuleV2 :=
  { split_strategy := byParagraphName, min_tokens := some 10,
    max_tokens := some 20, overlap := some 5 }

/-- The rules.py table of claim C8's witness. -/
def c8Table : List (Str × RuleV2) := [(defaultKey, c8V2)]

/-- Witness for claim C8 (amended): a direct hit on `BaseChunker`'s table
and a default-entry fallback in `rules.get_rule`. -/
theorem c8_rule_resolution_witness :
    ((chunkerWith defaultRule).rules.lookup noteKey = some defaultRule
      ∧ c8Table.lookup (ofStr ("email")) = none
      ∧ c8Table.lookup defaultKey = some c8V2)
    ∧ (chunkerWith defaultRule).selectRule noteKey = defaultRule
    ∧ rulesGet c8Table (ofStr ("email")) = Except.ok c8V2 :=
  ⟨⟨rfl, rfl, rfl⟩,
    (c8_rule_resolution (chunkerWith defaultRule) c8Table noteKey).1
      defaultRule rfl,
    (c8_rule_resolution (chunkerWith defaultRule) c8Table
      (ofStr ("email"))).2.2.2.1 rfl c8V2 rfl⟩

/-- A chunker holding the paragraph binding of the default registration,
used to exhibit the two dispatch sites' diverging policies. -/
def c9Chunker : Chunker := ⟨[], regParagraph⟩

/-- Counterexample to claim C9 as stated: at the unknown strategy name
the string `bogus`, `BaseChunker._initial_split` succeeds by falling back to the
paragraph strategy while `chunker_v3.split` raises, so no single policy
covers both call sites. -/
theorem c9_counterexample : ¬ uniformUnknownStrategyPolicy c9Chunker := by
  intro h
  rcases h with h | h
  · have hfalse := (h (ofStr ("bogus")) rfl).1 []
    have htrue : (c9Chunker.initialSplitE [] (ofStr ("bogus"))).isOk
        = true := rfl
    exact Bool.noConfusion (htrue.symm.trans hfalse)
  · have htrue := (h (ofStr ("bogus")) rfl).2
    have hfalse : (v3SelectBranch (ofStr ("bogus"))).isOk = false := rfl
    exact Bool.noConfusion (hfalse.symm.trans htrue)

/-- Claim C9 (amended): each dispatch site applies its own policy
uniformly, but the two differ.  For every name absent from its registry
(with the paragraph strategy registered, as `__init__` guarantees),
`BaseChunker._initial_split` falls back to `_split_by_paragraph`; for
every name outside its supported set, `chunker_v3.split` raises
`ValueError` carrying the name. -/
theorem c9_per_site_policy (c : Chunker) (s t : Str)
    (hreg : c.registry.lookup byParagraphName = some splitByParagraph)
    (hs : c.registry.lookup s = none)
    (hv : s ∉ v3SupportedNames) :
    c.initialSplitE t s = Except.ok (splitByParagraph t)
    ∧ v3SelectBranch s
        = Except.error (ofStr ("Unsupported strategy: ") ++ s) := by
  constructor
  · unfold Chunker.initialSplitE
    simp [hs, hreg]
  · simp only [v3SupportedNames, List.mem_cons, List.not_mem_nil, or_false,
      not_or] at hv
    obtain ⟨h1, h2, h3, h4, h5, h6, h7, h8, h9, h10, h11⟩ := hv
    unfold v3SelectBranch
    rw [if_neg (not_or.mpr ⟨h1, h2⟩), if_neg (not_or.mpr ⟨h3, h4⟩),
      if_neg (not_or.mpr ⟨h5, not_or.mpr ⟨h6, h7⟩⟩), if_neg h8, if_neg h9,
      if_neg (not_or.mpr ⟨h10, h11⟩)]

/-- Witness for claim C9 (amended) at the concrete unknown name
`bogus`. -/
theorem c9_per_site_policy_witness :
    (c9Chunker.registry.lookup byParagraphName = some splitByParagraph
      ∧ c9Chunker.registry.lookup (ofStr ("bogus")) = none
      ∧ ofStr ("bogus") ∉ v3SupportedNames)
    ∧ (c9Chunker.initialSplitE (ofStr ("x")) (ofStr ("bogus"))
        = Except.ok (splitByParagraph (ofStr ("x")))
      ∧ v3SelectBranch (ofStr ("bogus"))
          = Except.error
              (ofStr ("Unsupported strategy: ") ++ ofStr ("bogus"))) :=
  ⟨⟨rfl, rfl, by decide⟩,
    c9_per_site_policy c9Chunker (ofStr ("bogus")) (ofStr ("x")) rfl rfl
      (by decide)⟩
